import Mathlib

/-!
Verification of the elfprobe core: a shallow embedding of the zero-copy
ELF parsing library (byte-order codec, byte-castable `Pod` contract,
byte-source `Reader` abstraction, ELF identification/header structures and
the `parse_elf` dispatcher), together with theorems settling the
specification's claims about it.

Byte buffers are modelled as `List Nat` whose entries are byte values;
`usize` arithmetic is modelled as `Nat` with explicit wrap-around modulo
`2 ^ 64` where the source performs machine addition (release-mode wrapping
semantics of `offset + size`).
-/

namespace Elfprobe

/-- Modulus of the 64-bit `usize` type the implementation is compiled for. -/
def USIZE : Nat := 2 ^ 64

/-- Error type from `error.rs` (`BytesError`): `Empty` signals an
out-of-range / absent read, `SizeOfMismatch` a cast on a slice of the wrong
length, `AlignOfMismatch` a cast at a misaligned address (aligned
configuration only). -/
inductive BytesError where
  | Empty : BytesError
  | SizeOfMismatch (length size_of : Nat) : BytesError
  | AlignOfMismatch (pointer align_of : Nat) : BytesError
deriving DecidableEq, Repr

/-- Model of `Pod::from_bytes` from `pod.rs`. The type parameter is
represented by its `size_of`/`align_of`; the slice is represented by its
start address (`pointer`) and its `bytes`. `aligned` selects the build
configuration: the alignment check is compiled in only when the `unaligned`
feature is off (`aligned = true`). On success the source returns a
reference aliasing the input bytes; the model returns the byte view
itself. -/
def Pod.from_bytes (aligned : Bool) (size_of align_of pointer : Nat)
    (bytes : List Nat) : Except BytesError (List Nat) :=
  if bytes.length ≠ size_of then
    .error (.SizeOfMismatch bytes.length size_of)
  else if aligned ∧ pointer % align_of ≠ 0 then
    .error (.AlignOfMismatch pointer align_of)
  else
    .ok bytes

/-- Model of `<&[u8] as Reader>::read_bytes` from `core/reader.rs`:
`self.get(offset..offset + size)`. The range end `offset + size` is a
`usize` addition, hence the wrap modulo `USIZE`; `slice::get` on a range
returns `Some` exactly when `start ≤ end ≤ len`. -/
def read_bytes (bs : List Nat) (size offset : Nat) : Option (List Nat) :=
  if offset ≤ (offset + size) % USIZE ∧ (offset + size) % USIZE ≤ bs.length then
    some ((bs.drop offset).take ((offset + size) % USIZE - offset))
  else
    none

/-- Model of the provided `Reader::read_pod` method from `core/reader.rs`,
in the default (`unaligned`) build configuration: read `size_of` bytes at
`offset`, map an absent range to `BytesError::Empty`, and otherwise
delegate to `Pod.from_bytes` (whose alignment check is compiled out). -/
def read_pod (size_of : Nat) (bs : List Nat) (offset : Nat) :
    Except BytesError (List Nat) :=
  match read_bytes bs size_of offset with
  | none => .error .Empty
  | some bytes => Pod.from_bytes false size_of 1 0 bytes

/-- The `w`-byte slice stored at byte offset `off` of a buffer. -/
def fieldBytes (bs : List Nat) (off w : Nat) : List Nat :=
  (bs.drop off).take w

/-- The byte stored at offset `i` of a buffer (0 past the end). -/
def byteAt (bs : List Nat) (i : Nat) : Nat :=
  (bs[i]?).getD 0

/-- The two byte-order markers (`BigEndian`/`LittleEndian` zero-sized types
of `core/endian.rs`). -/
inductive ByteOrder where
  | little : ByteOrder
  | big : ByteOrder
deriving DecidableEq, Repr

/-- Little-endian byte decomposition of a `w`-byte integer, least
significant byte first (the layout produced by `uN::to_le_bytes`). -/
def toLeBytes : Nat → Nat → List Nat
  | 0, _ => []
  | w + 1, v => v % 256 :: toLeBytes w (v / 256)

/-- Recompose an integer from its little-endian bytes
(`uN::from_le_bytes`). -/
def fromLeBytes : List Nat → Nat
  | [] => 0
  | b :: rest => b + 256 * fromLeBytes rest

/-- Byte swap of a `w`-byte bit pattern (`uN::swap_bytes`). -/
def swapBytes (w v : Nat) : Nat :=
  fromLeBytes ((toLeBytes w v).reverse)

/-- Model of the aligned codec (`AlignedEndianOperation` impls in
`core/endian.rs`): `uN::from_be` / `uN::to_be` (resp. `_le`) are the
identity when the processor's native byte order matches the declared order
`e` and a byte swap otherwise. `native` is the processor's byte order, `w`
the integer width in bytes, and values are `w`-byte bit patterns. -/
def aligned_write (e native : ByteOrder) (w v : Nat) : Nat :=
  if native = e then v else swapBytes w v

/-- Aligned-mode decode; in the source `read` applies the same conversion
function as `write` (`uN::from_be` and `uN::to_be` are the same
permutation). -/
def aligned_read (e native : ByteOrder) (w v : Nat) : Nat :=
  if native = e then v else swapBytes w v

/-- Model of the unaligned codec (`UnalignedEndianOperation` impls in
`core/endian.rs`): `write` is `uN::to_le_bytes` / `uN::to_be_bytes`. -/
def unaligned_write (e : ByteOrder) (w v : Nat) : List Nat :=
  match e with
  | .little => toLeBytes w v
  | .big => (toLeBytes w v).reverse

/-- Unaligned-mode decode: `uN::from_le_bytes` / `uN::from_be_bytes`. -/
def unaligned_read (e : ByteOrder) (bytes : List Nat) : Nat :=
  match e with
  | .little => fromLeBytes bytes
  | .big => fromLeBytes bytes.reverse

/-- Two's-complement bit pattern of a signed `w`-byte integer. -/
def toUnsigned (w : Nat) (v : Int) : Nat :=
  (v % ((2 ^ (8 * w) : Nat) : Int)).toNat

/-- Signed value of a two's-complement `w`-byte bit pattern. -/
def toSigned (w : Nat) (n : Nat) : Int :=
  if n < 2 ^ (8 * w - 1) then (n : Int) else (n : Int) - ((2 ^ (8 * w) : Nat) : Int)

/-- Aligned codec on the signed types (`i16`/`i32`/`i64` impls): the byte
permutation acts on the two's-complement bit pattern. -/
def saligned_write (e native : ByteOrder) (w : Nat) (v : Int) : Int :=
  toSigned w (aligned_write e native w (toUnsigned w v))

/-- Aligned-mode signed decode. -/
def saligned_read (e native : ByteOrder) (w : Nat) (v : Int) : Int :=
  toSigned w (aligned_read e native w (toUnsigned w v))

/-- Unaligned codec on the signed types: `iN::to_le_bytes`/`to_be_bytes`
of the two's-complement pattern. -/
def sunaligned_write (e : ByteOrder) (w : Nat) (v : Int) : List Nat :=
  unaligned_write e w (toUnsigned w v)

/-- Unaligned-mode signed decode: `iN::from_le_bytes`/`from_be_bytes`. -/
def sunaligned_read (e : ByteOrder) (w : Nat) (bytes : List Nat) : Int :=
  toSigned w (unaligned_read e bytes)

/-- Model of the primitive wrappers' `get` (`core/primitive.rs`, default
`unaligned` feature): decode the stored byte array with the declared byte
order via `Endianness::read`. -/
def Primitive.get (e : ByteOrder) (stored : List Nat) : Nat :=
  unaligned_read e stored

/-- An `ElfType` instance from `elf.rs`: a byte order plus the byte widths
of the associated field types. -/
structure ElfTypeSpec where
  order : ByteOrder
  addrSize : Nat
  halfSize : Nat
  offSize : Nat
  swordSize : Nat
  ucharSize : Nat
  wordSize : Nat
deriving DecidableEq, Repr

/-- `ElfType32<E>` from `elf.rs`: `Addr`/`Off`/`Word` are `U32` (4 bytes),
`Half` is `U16` (2), `Sword` is `I32` (4), `Uchar` is `u8` (1). -/
def ElfType32 (e : ByteOrder) : ElfTypeSpec :=
  ⟨e, 4, 2, 4, 4, 1, 4⟩

/-- `ElfType64<E>` from `elf.rs`: `Addr`/`Off` are `U64` (8 bytes), `Half`
is `U16` (2), `Sword` is `I32` (4), `Word` is `U32` (4), `Uchar` is `u8`
(1). -/
def ElfType64 (e : ByteOrder) : ElfTypeSpec :=
  ⟨e, 8, 2, 8, 4, 1, 4⟩

/-- `size_of::<ElfIdentification<T>>()`: the fields, in declaration order,
are `ei_mag0..ei_mag3`, `ei_class`, `ei_data`, `ei_version`, `ei_osabi`,
`ei_abiversion` (each one `Uchar`) and `ei_pad : [Uchar; 7]`; every field
of a `repr(C)` struct of `u8`s is laid out consecutively with no
padding. -/
def sizeOfElfIdentification (t : ElfTypeSpec) : Nat :=
  t.ucharSize + t.ucharSize + t.ucharSize + t.ucharSize +
    t.ucharSize + t.ucharSize + t.ucharSize + t.ucharSize + t.ucharSize +
    7 * t.ucharSize

/-- `size_of::<ElfHeader<T>>()`: identification block followed by
`e_type`/`e_machine` (`Half`), `e_version` (`Word`), `e_entry` (`Addr`),
`e_phoff`/`e_shoff` (`Off`), `e_flags` (`Word`), and the six trailing
`Half` fields; in the default `unaligned` configuration every stored field
has alignment 1, so the `repr(C)` layout is consecutive with no padding. -/
def sizeOfElfHeader (t : ElfTypeSpec) : Nat :=
  sizeOfElfIdentification t +
    t.halfSize + t.halfSize + t.wordSize + t.addrSize +
    t.offSize + t.offSize + t.wordSize +
    t.halfSize + t.halfSize + t.halfSize + t.halfSize + t.halfSize + t.halfSize

/-- `ElfIdentification<T>` from `elf.rs` (single-byte fields hold the byte
value; `ei_pad` holds its 7 raw bytes). -/
structure ElfIdentification where
  ei_mag0 : Nat
  ei_mag1 : Nat
  ei_mag2 : Nat
  ei_mag3 : Nat
  ei_class : Nat
  ei_data : Nat
  ei_version : Nat
  ei_osabi : Nat
  ei_abiversion : Nat
  ei_pad : List Nat
deriving DecidableEq, Repr

/-- `ElfHeader<T>` from `elf.rs`. Each multi-byte field holds its stored
byte array (the wrappers of `core/primitive.rs` in the default `unaligned`
configuration store the bytes exactly as they appear on disk); decoding
happens on access via `Primitive.get`. -/
structure ElfHeader where
  e_ident : ElfIdentification
  e_type : List Nat
  e_machine : List Nat
  e_version : List Nat
  e_entry : List Nat
  e_phoff : List Nat
  e_shoff : List Nat
  e_flags : List Nat
  e_ehsize : List Nat
  e_phentsize : List Nat
  e_phnum : List Nat
  e_shentsize : List Nat
  e_shnum : List Nat
  e_shstrndx : List Nat
deriving DecidableEq, Repr

/-- Reinterpretation of a 16-byte view as `ElfIdentification` (the
zero-copy cast: each field aliases its bytes in declaration order). -/
def ElfIdentification.ofBytes (bs : List Nat) : ElfIdentification where
  ei_mag0 := byteAt bs 0
  ei_mag1 := byteAt bs 1
  ei_mag2 := byteAt bs 2
  ei_mag3 := byteAt bs 3
  ei_class := byteAt bs 4
  ei_data := byteAt bs 5
  ei_version := byteAt bs 6
  ei_osabi := byteAt bs 7
  ei_abiversion := byteAt bs 8
  ei_pad := fieldBytes bs 9 7

/-- Reinterpretation of an exactly-sized view as `ElfHeader<T>`: the
`repr(C)` field offsets are the running sums of the preceding field
sizes. -/
def ElfHeader.ofBytes (t : ElfTypeSpec) (bs : List Nat) : ElfHeader :=
  let o1 := sizeOfElfIdentification t
  let o2 := o1 + t.halfSize
  let o3 := o2 + t.halfSize
  let o4 := o3 + t.wordSize
  let o5 := o4 + t.addrSize
  let o6 := o5 + t.offSize
  let o7 := o6 + t.offSize
  let o8 := o7 + t.wordSize
  let o9 := o8 + t.halfSize
  let o10 := o9 + t.halfSize
  let o11 := o10 + t.halfSize
  let o12 := o11 + t.halfSize
  let o13 := o12 + t.halfSize
  { e_ident := ElfIdentification.ofBytes (fieldBytes bs 0 o1)
    e_type := fieldBytes bs o1 t.halfSize
    e_machine := fieldBytes bs o2 t.halfSize
    e_version := fieldBytes bs o3 t.wordSize
    e_entry := fieldBytes bs o4 t.addrSize
    e_phoff := fieldBytes bs o5 t.offSize
    e_shoff := fieldBytes bs o6 t.offSize
    e_flags := fieldBytes bs o7 t.wordSize
    e_ehsize := fieldBytes bs o8 t.halfSize
    e_phentsize := fieldBytes bs o9 t.halfSize
    e_phnum := fieldBytes bs o10 t.halfSize
    e_shentsize := fieldBytes bs o11 t.halfSize
    e_shnum := fieldBytes bs o12 t.halfSize
    e_shstrndx := fieldBytes bs o13 t.halfSize }

/-- `Pod::from_bytes` instantiated at `ElfHeader<T>` in the default
`unaligned` configuration: size check, then the zero-copy
reinterpretation. -/
def ElfHeader.from_bytes (t : ElfTypeSpec) (bs : List Nat) :
    Except BytesError ElfHeader :=
  match Pod.from_bytes false (sizeOfElfHeader t) 1 0 bs with
  | .error e => .error e
  | .ok view => .ok (ElfHeader.ofBytes t view)

/-- `Reader::read_pod::<ElfHeader<T>>` on a byte-slice reader. -/
def read_pod_header (t : ElfTypeSpec) (bs : List Nat) (offset : Nat) :
    Except BytesError ElfHeader :=
  match read_bytes bs (sizeOfElfHeader t) offset with
  | none => .error .Empty
  | some bytes => ElfHeader.from_bytes t bytes

/-- `_ElfFile::parse` from `elf.rs`: `read_pod::<ElfHeader<T>>(0)` and
pair the header with the byte source. -/
def ElfFileParse (t : ElfTypeSpec) (data : List Nat) :
    Except BytesError (ElfHeader × List Nat) :=
  match read_pod_header t data 0 with
  | .error e => .error e
  | .ok header => .ok (header, data)

/-- The four-variant result type `ElfFile` of `elf.rs`; each variant holds
the parsed header and the originating byte source. -/
inductive ElfFile where
  | Elf32Be (header : ElfHeader) (data : List Nat) : ElfFile
  | Elf64Be (header : ElfHeader) (data : List Nat) : ElfFile
  | Elf32Le (header : ElfHeader) (data : List Nat) : ElfFile
  | Elf64Le (header : ElfHeader) (data : List Nat) : ElfFile
deriving DecidableEq, Repr

/-- The ELF magic bytes `0x7F 'E' 'L' 'F'`. -/
def magicBytes : List Nat := [0x7f, 0x45, 0x4c, 0x46]

/-- `parse_elf` from `elf.rs`: magic gate at offset 0, class/data dispatch
at offset 4, then `read_pod::<ElfHeader<_>>(0)`; every structural
rejection returns the generic `BytesError::Empty` (the source's
`TODO: TMP` arms). The slice-pattern match on the class/data pair is an
equality-test chain. -/
def parse_elf (data : List Nat) : Except BytesError ElfFile :=
  if read_bytes data 4 0 ≠ some magicBytes then .error .Empty
  else
    match read_bytes data 2 4 with
    | none => .error .Empty
    | some format =>
      if format = [1, 1] then
        match ElfFileParse (ElfType32 .little) data with
        | .error e => .error e
        | .ok p => .ok (.Elf32Le p.1 p.2)
      else if format = [2, 1] then
        match ElfFileParse (ElfType64 .little) data with
        | .error e => .error e
        | .ok p => .ok (.Elf64Le p.1 p.2)
      else if format = [1, 2] then
        match ElfFileParse (ElfType32 .big) data with
        | .error e => .error e
        | .ok p => .ok (.Elf32Be p.1 p.2)
      else if format = [2, 2] then
        match ElfFileParse (ElfType64 .big) data with
        | .error e => .error e
        | .ok p => .ok (.Elf64Be p.1 p.2)
      else .error .Empty

-- Magic-number rendering (`elf/magic.rs`)

/-- `u8::is_ascii_graphic`: printable ASCII excluding space
(`0x21..=0x7E`). -/
def isAsciiGraphic (b : Nat) : Bool :=
  0x21 ≤ b && b ≤ 0x7e

/-- Lowercase hexadecimal digit for a value below 16. -/
def hexDigit (n : Nat) : Char :=
  if n < 10 then Char.ofNat (48 + n) else Char.ofNat (87 + n)

/-- `std::ascii::escape_default`: backslash escapes for tab, carriage
return, newline, backslash, single and double quote; printable ASCII
(`0x20..=0x7E`) unchanged; every other byte as `\xHH` (lowercase hex). -/
def escapeDefault (b : Nat) : List Char :=
  if b = 9 then ['\\', 't']
  else if b = 13 then ['\\', 'r']
  else if b = 10 then ['\\', 'n']
  else if b = 92 then ['\\', '\\']
  else if b = 39 then ['\\', Char.ofNat 39]
  else if b = 34 then ['\\', '"']
  else if 0x20 ≤ b ∧ b ≤ 0x7e then [Char.ofNat b]
  else ['\\', 'x', hexDigit (b / 16), hexDigit (b % 16)]

/-- The loop body of `impl Display for Magic`: emit a separating space
before a byte unless the previous byte was printable and so is this one,
then emit the byte's `escape_default` rendering. -/
def renderMagic : List Nat → Bool → List Char
  | [], _ => []
  | b :: rest, lastPrintable =>
    (if !lastPrintable || !(isAsciiGraphic b) then [' '] else []) ++
      escapeDefault b ++ renderMagic rest (isAsciiGraphic b)

/-- `u8::is_ascii_whitespace` on a rendered character. -/
def isAsciiWhitespaceChar (c : Char) : Bool :=
  c = ' ' || c = '\t' || c = '\n' || c = '\r' || c = Char.ofNat 12

/-- `str::trim_ascii_start`. -/
def trimAsciiStart : List Char → List Char
  | [] => []
  | c :: rest => if isAsciiWhitespaceChar c then trimAsciiStart rest else c :: rest

/-- `impl Display for Magic` (`elf/magic.rs`): render each byte with
`escape_default`, separating groups with single spaces (the
`last_is_printable` state starts `true`), then trim leading ASCII
whitespace. -/
def magicDisplay (magic : List Nat) : List Char :=
  trimAsciiStart (renderMagic magic true)

-- Spec-side definitions for the refinement claims

/-- Modelled from the spec: the four class/data byte pairs and the
variant each one selects (`(1,1)` 32-bit little, `(2,1)` 64-bit little,
`(1,2)` 32-bit big, `(2,2)` 64-bit big). -/
inductive Combo where
  | c32le : Combo
  | c64le : Combo
  | c32be : Combo
  | c64be : Combo
deriving DecidableEq, Repr

/-- Modelled from the spec: the class byte of a combination. -/
def Combo.classByte : Combo → Nat
  | .c32le => 1
  | .c64le => 2
  | .c32be => 1
  | .c64be => 2

/-- Modelled from the spec: the data-encoding byte of a combination. -/
def Combo.dataByte : Combo → Nat
  | .c32le => 1
  | .c64le => 1
  | .c32be => 2
  | .c64be => 2

/-- The `ElfType` instance a combination selects. -/
def Combo.typeSpec : Combo → ElfTypeSpec
  | .c32le => ElfType32 .little
  | .c64le => ElfType64 .little
  | .c32be => ElfType32 .big
  | .c64be => ElfType64 .big

/-- The tagged variant a combination selects. -/
def Combo.make : Combo → ElfHeader → List Nat → ElfFile
  | .c32le => .Elf32Le
  | .c64le => .Elf64Le
  | .c32be => .Elf32Be
  | .c64be => .Elf64Be

/-- Modelled from the spec: the integer encoded at offset `off` over `w`
bytes of the input, decoded in byte order `e`. -/
def decodeAt (e : ByteOrder) (bs : List Nat) (off w : Nat) : Nat :=
  unaligned_read e (fieldBytes bs off w)

/-- Modelled from the spec: the identification fields equal the bytes at
offsets 0–15 of the input. -/
def IdentSpec (bs : List Nat) (i : ElfIdentification) : Prop :=
  i.ei_mag0 = byteAt bs 0 ∧ i.ei_mag1 = byteAt bs 1 ∧
  i.ei_mag2 = byteAt bs 2 ∧ i.ei_mag3 = byteAt bs 3 ∧
  i.ei_class = byteAt bs 4 ∧ i.ei_data = byteAt bs 5 ∧
  i.ei_version = byteAt bs 6 ∧ i.ei_osabi = byteAt bs 7 ∧
  i.ei_abiversion = byteAt bs 8 ∧ i.ei_pad = fieldBytes bs 9 7

/-- Modelled from the spec: every 32-bit header field, decoded via `get`,
equals the integer encoded at the ELF-defined offset of the input in byte
order `e` (Elf32 layout: halves at 16, 18, 40–50, words at 20, 36,
4-byte address/offsets at 24, 28, 32). -/
def HeaderSpec32 (e : ByteOrder) (bs : List Nat) (h : ElfHeader) : Prop :=
  Primitive.get e h.e_type = decodeAt e bs 16 2 ∧
  Primitive.get e h.e_machine = decodeAt e bs 18 2 ∧
  Primitive.get e h.e_version = decodeAt e bs 20 4 ∧
  Primitive.get e h.e_entry = decodeAt e bs 24 4 ∧
  Primitive.get e h.e_phoff = decodeAt e bs 28 4 ∧
  Primitive.get e h.e_shoff = decodeAt e bs 32 4 ∧
  Primitive.get e h.e_flags = decodeAt e bs 36 4 ∧
  Primitive.get e h.e_ehsize = decodeAt e bs 40 2 ∧
  Primitive.get e h.e_phentsize = decodeAt e bs 42 2 ∧
  Primitive.get e h.e_phnum = decodeAt e bs 44 2 ∧
  Primitive.get e h.e_shentsize = decodeAt e bs 46 2 ∧
  Primitive.get e h.e_shnum = decodeAt e bs 48 2 ∧
  Primitive.get e h.e_shstrndx = decodeAt e bs 50 2 ∧
  IdentSpec bs h.e_ident

/-- Modelled from the spec: the 64-bit analogue (8-byte `e_entry` at 24,
`e_phoff` at 32, `e_shoff` at 40, word `e_flags` at 48, trailing halves at
52–62). -/
def HeaderSpec64 (e : ByteOrder) (bs : List Nat) (h : ElfHeader) : Prop :=
  Primitive.get e h.e_type = decodeAt e bs 16 2 ∧
  Primitive.get e h.e_machine = decodeAt e bs 18 2 ∧
  Primitive.get e h.e_version = decodeAt e bs 20 4 ∧
  Primitive.get e h.e_entry = decodeAt e bs 24 8 ∧
  Primitive.get e h.e_phoff = decodeAt e bs 32 8 ∧
  Primitive.get e h.e_shoff = decodeAt e bs 40 8 ∧
  Primitive.get e h.e_flags = decodeAt e bs 48 4 ∧
  Primitive.get e h.e_ehsize = decodeAt e bs 52 2 ∧
  Primitive.get e h.e_phentsize = decodeAt e bs 54 2 ∧
  Primitive.get e h.e_phnum = decodeAt e bs 56 2 ∧
  Primitive.get e h.e_shentsize = decodeAt e bs 58 2 ∧
  Primitive.get e h.e_shnum = decodeAt e bs 60 2 ∧
  Primitive.get e h.e_shstrndx = decodeAt e bs 62 2 ∧
  IdentSpec bs h.e_ident

/-- Modelled from the spec: the header-decoding property of the combination
a well-formed buffer selects. -/
def HeaderSpec : Combo → List Nat → ElfHeader → Prop
  | .c32le, bs, h => HeaderSpec32 .little bs h
  | .c64le, bs, h => HeaderSpec64 .little bs h
  | .c32be, bs, h => HeaderSpec32 .big bs h
  | .c64be, bs, h => HeaderSpec64 .big bs h

/-- Sample well-formed 32-bit little-endian buffer (52 bytes). -/
def sampleBuf : List Nat :=
  [0x7f, 0x45, 0x4c, 0x46, 1, 1] ++ List.replicate 46 0

/-- The four class/data byte pairs accepted by `parse_elf`'s match. -/
def ValidPair (format : List Nat) : Prop :=
  format = [1, 1] ∨ format = [2, 1] ∨ format = [1, 2] ∨ format = [2, 2]

instance (format : List Nat) : Decidable (ValidPair format) := by
  unfold ValidPair
  infer_instance

-- Reader lemmas

theorem read_bytes_of_le (bs : List Nat) (size offset : Nat)
    (hm : offset + size < USIZE) (hl : offset + size ≤ bs.length) :
    read_bytes bs size offset = some ((bs.drop offset).take size) := by
  unfold read_bytes
  rw [Nat.mod_eq_of_lt hm, Nat.add_sub_cancel_left, if_pos ⟨Nat.le_add_right _ _, hl⟩]

theorem read_bytes_short (bs : List Nat) (size offset : Nat)
    (hm : offset + size < USIZE) (hl : bs.length < offset + size) :
    read_bytes bs size offset = none := by
  unfold read_bytes
  rw [Nat.mod_eq_of_lt hm, if_neg (by omega)]

theorem read_bytes_wrap (bs : List Nat) (size offset : Nat)
    (hs : size < USIZE) (ho : offset < USIZE) (hw : USIZE ≤ offset + size) :
    read_bytes bs size offset = none := by
  have he : (offset + size) % USIZE = offset + size - USIZE := by
    rw [Nat.mod_eq_sub_mod hw, Nat.mod_eq_of_lt (by omega)]
  unfold read_bytes
  rw [he, if_neg (by omega)]

theorem read_bytes_eq (bs : List Nat) (size offset : Nat)
    (hs : size < USIZE) (ho : offset < USIZE) (hl : bs.length < USIZE) :
    read_bytes bs size offset =
      if offset + size ≤ bs.length then some ((bs.drop offset).take size)
      else none := by
  rcases Nat.lt_or_ge (offset + size) USIZE with hm | hm
  · rcases le_or_lt (offset + size) bs.length with hle | hlt
    · rw [read_bytes_of_le bs size offset hm hle, if_pos hle]
    · rw [read_bytes_short bs size offset hm hlt, if_neg (by omega)]
  · rw [read_bytes_wrap bs size offset hs ho hm, if_neg (by omega)]

theorem read_pod_eq (size_of offset : Nat) (bs : List Nat)
    (hs : size_of < USIZE) (ho : offset < USIZE) (hl : bs.length < USIZE) :
    read_pod size_of bs offset =
      if offset + size_of ≤ bs.length then .ok ((bs.drop offset).take size_of)
      else .error .Empty := by
  unfold read_pod
  rw [read_bytes_eq bs size_of offset hs ho hl]
  by_cases hc : offset + size_of ≤ bs.length
  · rw [if_pos hc, if_pos hc]
    show Pod.from_bytes false size_of 1 0 _ = _
    have hlen : ((bs.drop offset).take size_of).length = size_of := by
      simp only [List.length_take, List.length_drop]
      omega
    unfold Pod.from_bytes
    rw [if_neg (by simp [hlen]), if_neg (by simp)]
  · rw [if_neg hc, if_neg hc]

/-- C4: `read_bytes(size, offset)` returns `None` exactly when
`[offset, offset + size)` exceeds `length()`, and otherwise the `size`-byte
subslice starting at `offset`; it is total (never panics) for all `usize`
values of `size` and `offset` — including pairs whose sum wraps past the
maximum representable index, which land in the `None` branch — and the
returned slice is by construction within the buffer's bounds. -/
theorem C4_read_bytes_bounds (bs : List Nat) (size offset : Nat)
    (hs : size < USIZE) (ho : offset < USIZE) (hl : bs.length < USIZE) :
    (read_bytes bs size offset = none ↔ bs.length < offset + size) ∧
    (offset + size ≤ bs.length →
      read_bytes bs size offset = some (fieldBytes bs offset size) ∧
      (fieldBytes bs offset size).length = size) := by
  rw [read_bytes_eq bs size offset hs ho hl]
  constructor
  · constructor
    · intro hnone
      by_contra hle
      push_neg at hle
      rw [if_pos hle] at hnone
      exact Option.noConfusion hnone
    · intro hlt
      rw [if_neg (by omega)]
  · intro hle
    rw [if_pos hle]
    refine ⟨rfl, ?_⟩
    simp only [fieldBytes, List.length_take, List.length_drop]
    omega

/-- Witness for C4: a 3-byte buffer, reading 2 bytes at offset 1. -/
theorem C4_read_bytes_bounds_witness :
    (2 < USIZE ∧ 1 < USIZE ∧ [10, 20, 30].length < USIZE) ∧
    ((read_bytes [10, 20, 30] 2 1 = none ↔ [10, 20, 30].length < 1 + 2) ∧
      (1 + 2 ≤ [10, 20, 30].length →
        read_bytes [10, 20, 30] 2 1 = some (fieldBytes [10, 20, 30] 1 2) ∧
        (fieldBytes [10, 20, 30] 1 2).length = 2)) := by
  refine ⟨⟨?_, ?_, ?_⟩, C4_read_bytes_bounds [10, 20, 30] 2 1 ?_ ?_ ?_⟩ <;> decide

/-- C10: `read_pod::<T>` can never fail with `SizeOfMismatch`: every slice
produced by `read_bytes` has exactly `size_of::<T>()` bytes, so (in the
default unaligned configuration) its only error is the out-of-range
`Empty`, returned exactly when `[offset, offset + size_of)` exceeds the
length. -/
theorem C10_read_pod_total (size_of offset : Nat) (bs : List Nat)
    (hs : size_of < USIZE) (ho : offset < USIZE) (hl : bs.length < USIZE) :
    (∀ L E, read_pod size_of bs offset ≠ .error (.SizeOfMismatch L E)) ∧
    (∀ out, read_bytes bs size_of offset = some out → out.length = size_of) ∧
    (read_pod size_of bs offset = .error .Empty ↔ bs.length < offset + size_of) ∧
    (offset + size_of ≤ bs.length →
      read_pod size_of bs offset = .ok (fieldBytes bs offset size_of)) := by
  have hrb := read_bytes_eq bs size_of offset hs ho hl
  have hrp := read_pod_eq size_of offset bs hs ho hl
  by_cases hc : offset + size_of ≤ bs.length
  · rw [if_pos hc] at hrb hrp
    refine ⟨?_, ?_, ?_, ?_⟩
    · intro L E
      rw [hrp]
      simp
    · intro out hout
      rw [hrb] at hout
      injection hout with hout
      rw [← hout]
      simp only [List.length_take, List.length_drop]
      omega
    · rw [hrp]
      simp only [reduceCtorEq, false_iff]
      omega
    · intro _
      rw [hrp]
      rfl
  · rw [if_neg hc] at hrb hrp
    refine ⟨?_, ?_, ?_, ?_⟩
    · intro L E
      rw [hrp]
      simp
    · intro out hout
      rw [hrb] at hout
      exact Option.noConfusion hout
    · rw [hrp]
      simp only [true_iff]
      omega
    · intro h
      omega

/-- Witness for C10: an in-range and an out-of-range typed read on a
3-byte buffer with a 2-byte type. -/
theorem C10_read_pod_total_witness :
    (2 < USIZE ∧ 0 < USIZE ∧ 2 < USIZE ∧ [1, 2, 3].length < USIZE) ∧
    read_pod 2 [1, 2, 3] 0 = .ok (fieldBytes [1, 2, 3] 0 2) ∧
    read_pod 2 [1, 2, 3] 2 = .error .Empty := by
  refine ⟨⟨by decide, by decide, by decide, by decide⟩, ?_, ?_⟩
  · exact (C10_read_pod_total 2 0 [1, 2, 3] (by decide) (by decide)
      (by decide)).2.2.2 (by decide)
  · exact ((C10_read_pod_total 2 2 [1, 2, 3] (by decide) (by decide)
      (by decide)).2.2.1).mpr (by decide)

/-- C2: `from_bytes` succeeds exactly when the slice length equals
`size_of::<T>()` (in the unaligned configuration; the aligned configuration
adds the alignment check settled separately), and on any length mismatch
both configurations fail with `SizeOfMismatch` reporting the actual length
and the expected size exactly. -/
theorem C2_from_bytes_size (size_of align_of pointer : Nat) (bytes : List Nat)
    (aligned : Bool) :
    (Pod.from_bytes false size_of align_of pointer bytes = .ok bytes ↔
      bytes.length = size_of) ∧
    (bytes.length ≠ size_of →
      Pod.from_bytes aligned size_of align_of pointer bytes =
        .error (.SizeOfMismatch bytes.length size_of)) := by
  constructor
  · constructor
    · intro h
      by_contra hne
      unfold Pod.from_bytes at h
      rw [if_pos hne] at h
      exact Except.noConfusion h
    · intro hlen
      unfold Pod.from_bytes
      rw [if_neg (by omega), if_neg (by simp)]
  · intro hne
    unfold Pod.from_bytes
    rw [if_pos hne]

/-- Witness for C2: the spec's example, a 3-byte buffer cast to a 16-byte
type, plus a correctly-sized success. -/
theorem C2_from_bytes_size_witness :
    ([1, 2, 3] : List Nat).length ≠ 16 ∧
    Pod.from_bytes false 16 8 0 [1, 2, 3] = .error (.SizeOfMismatch 3 16) ∧
    (Pod.from_bytes false 2 8 0 [7, 8] = .ok [7, 8] ↔
      ([7, 8] : List Nat).length = 2) := by
  refine ⟨by decide, ?_, (C2_from_bytes_size 2 8 0 [7, 8] false).1⟩
  exact (C2_from_bytes_size 16 8 0 [1, 2, 3] false).2 (by decide)

/-- C8: in the aligned configuration a correctly-sized but misaligned
slice fails with `AlignOfMismatch` reporting exactly the address and the
required alignment, the same bytes at an aligned address succeed, and the
unaligned configuration never performs an alignment check (success for
every address and alignment). -/
theorem C8_alignment_check (size_of align_of pointer : Nat) (bytes : List Nat)
    (hsize : bytes.length = size_of) :
    (pointer % align_of ≠ 0 →
      Pod.from_bytes true size_of align_of pointer bytes =
        .error (.AlignOfMismatch pointer align_of)) ∧
    (pointer % align_of = 0 →
      Pod.from_bytes true size_of align_of pointer bytes = .ok bytes) ∧
    (∀ p a, Pod.from_bytes false size_of a p bytes = .ok bytes) := by
  refine ⟨?_, ?_, ?_⟩
  · intro hmis
    unfold Pod.from_bytes
    rw [if_neg (by omega), if_pos ⟨rfl, hmis⟩]
  · intro hal
    unfold Pod.from_bytes
    rw [if_neg (by omega), if_neg (by simp [hal])]
  · intro p a
    unfold Pod.from_bytes
    rw [if_neg (by omega), if_neg (by simp)]

/-- Witness for C8: a 2-byte value at address 1 with required alignment 8
(misaligned), at address 8 (aligned), and in the unaligned
configuration. -/
theorem C8_alignment_check_witness :
    ([5, 6] : List Nat).length = 2 ∧
    (1 % 8 ≠ 0 ∧
      Pod.from_bytes true 2 8 1 [5, 6] = .error (.AlignOfMismatch 1 8)) ∧
    (8 % 8 = 0 ∧ Pod.from_bytes true 2 8 8 [5, 6] = .ok [5, 6]) ∧
    Pod.from_bytes false 2 8 1 [5, 6] = .ok [5, 6] := by
  refine ⟨by decide,
    ⟨by decide, (C8_alignment_check 2 8 1 [5, 6] (by decide)).1 (by decide)⟩,
    ⟨by decide, (C8_alignment_check 2 8 8 [5, 6] (by decide)).2.1 (by decide)⟩,
    (C8_alignment_check 2 8 1 [5, 6] (by decide)).2.2 1 8⟩

-- Codec lemmas

theorem toLeBytes_length (w v : Nat) : (toLeBytes w v).length = w := by
  induction w generalizing v with
  | zero => rfl
  | succ w ih => simp [toLeBytes, ih]

theorem toLeBytes_lt (w v : Nat) : ∀ b ∈ toLeBytes w v, b < 256 := by
  induction w generalizing v with
  | zero => intro b hb; simp [toLeBytes] at hb
  | succ w ih =>
    intro b hb
    simp only [toLeBytes, List.mem_cons] at hb
    rcases hb with rfl | hb
    · omega
    · exact ih _ b hb

theorem fromLeBytes_toLeBytes (w v : Nat) (h : v < 256 ^ w) :
    fromLeBytes (toLeBytes w v) = v := by
  induction w generalizing v with
  | zero =>
    simp only [toLeBytes, fromLeBytes]
    simp only [pow_zero] at h
    omega
  | succ w ih =>
    have hdiv : v / 256 < 256 ^ w := by
      rw [pow_succ] at h
      exact Nat.div_lt_of_lt_mul (by rw [mul_comm]; exact h)
    simp only [toLeBytes, fromLeBytes]
    rw [ih (v / 256) hdiv]
    omega

theorem toLeBytes_fromLeBytes (l : List Nat) (h : ∀ b ∈ l, b < 256) :
    toLeBytes l.length (fromLeBytes l) = l := by
  induction l with
  | nil => rfl
  | cons b rest ih =>
    have hb : b < 256 := h b (by simp)
    simp only [List.length_cons, toLeBytes, fromLeBytes]
    have h1 : (b + 256 * fromLeBytes rest) % 256 = b := by omega
    have h2 : (b + 256 * fromLeBytes rest) / 256 = fromLeBytes rest := by omega
    rw [h1, h2, ih (fun x hx => h x (by simp [hx]))]

theorem fromLeBytes_lt (l : List Nat) (h : ∀ b ∈ l, b < 256) :
    fromLeBytes l < 256 ^ l.length := by
  induction l with
  | nil => simp [fromLeBytes]
  | cons b rest ih =>
    have hb : b < 256 := h b (by simp)
    have hr := ih (fun x hx => h x (by simp [hx]))
    simp only [fromLeBytes, List.length_cons, pow_succ]
    generalize (256 : Nat) ^ rest.length = P at hr ⊢
    omega

theorem swapBytes_lt (w v : Nat) : swapBytes w v < 256 ^ w := by
  unfold swapBytes
  have h := fromLeBytes_lt ((toLeBytes w v).reverse)
    (fun b hb => toLeBytes_lt w v b (List.mem_reverse.mp hb))
  rwa [List.length_reverse, toLeBytes_length] at h

theorem swapBytes_swapBytes (w v : Nat) (h : v < 256 ^ w) :
    swapBytes w (swapBytes w v) = v := by
  unfold swapBytes
  have hmem : ∀ b ∈ (toLeBytes w v).reverse, b < 256 := fun b hb =>
    toLeBytes_lt w v b (List.mem_reverse.mp hb)
  have hrt := toLeBytes_fromLeBytes ((toLeBytes w v).reverse) hmem
  rw [List.length_reverse, toLeBytes_length] at hrt
  rw [hrt, List.reverse_reverse, fromLeBytes_toLeBytes w v h]

theorem pow256 (w : Nat) : 2 ^ (8 * w) = 256 ^ w := by
  rw [pow_mul]
  norm_num

theorem aligned_roundtrip (e native : ByteOrder) (w v : Nat)
    (h : v < 2 ^ (8 * w)) :
    aligned_read e native w (aligned_write e native w v) = v := by
  rw [pow256] at h
  unfold aligned_read aligned_write
  by_cases hn : native = e
  · rw [if_pos hn, if_pos hn]
  · rw [if_neg hn, if_neg hn, swapBytes_swapBytes w v h]

theorem unaligned_roundtrip (e : ByteOrder) (w v : Nat)
    (h : v < 2 ^ (8 * w)) :
    unaligned_read e (unaligned_write e w v) = v := by
  rw [pow256] at h
  cases e with
  | little => simp only [unaligned_read, unaligned_write,
      fromLeBytes_toLeBytes w v h]
  | big => simp only [unaligned_read, unaligned_write, List.reverse_reverse,
      fromLeBytes_toLeBytes w v h]

theorem aligned_write_lt (e native : ByteOrder) (w v : Nat)
    (h : v < 2 ^ (8 * w)) :
    aligned_write e native w v < 2 ^ (8 * w) := by
  unfold aligned_write
  split
  · exact h
  · rw [pow256]
    exact swapBytes_lt w v

theorem toUnsigned_lt (w : Nat) (v : Int) : toUnsigned w v < 2 ^ (8 * w) := by
  unfold toUnsigned
  have hpos : 0 < (2 : Nat) ^ (8 * w) := pow_pos (by norm_num) _
  generalize (2 : Nat) ^ (8 * w) = M at hpos ⊢
  have hM : (0 : Int) < (M : Int) := by exact_mod_cast hpos
  have h1 := Int.emod_nonneg v (ne_of_gt hM)
  have h2 := Int.emod_lt_of_pos v hM
  omega

theorem pow_split (w : Nat) (hw : 1 ≤ w) :
    (2 ^ (8 * w) : Nat) = 2 * 2 ^ (8 * w - 1) := by
  have h8 : 8 * w - 1 + 1 = 8 * w := by omega
  calc (2 ^ (8 * w) : Nat) = 2 ^ (8 * w - 1 + 1) := by rw [h8]
    _ = 2 * 2 ^ (8 * w - 1) := by rw [pow_succ']

theorem toSigned_toUnsigned (w : Nat) (hw : 1 ≤ w) (v : Int)
    (h1 : -((2 ^ (8 * w - 1) : Nat) : Int) ≤ v)
    (h2 : v < ((2 ^ (8 * w - 1) : Nat) : Int)) :
    toSigned w (toUnsigned w v) = v := by
  have hMA := pow_split w hw
  have hApos : 0 < (2 : Nat) ^ (8 * w - 1) := pow_pos (by norm_num) _
  unfold toSigned toUnsigned
  generalize hA : (2 : Nat) ^ (8 * w - 1) = A at *
  generalize hM : (2 : Nat) ^ (8 * w) = M at *
  rcases le_or_lt 0 v with hv | hv
  · have he : v % (M : Int) = v := Int.emod_eq_of_lt hv (by omega)
    rw [he]
    split <;> omega
  · have he : v % (M : Int) = v + M := by
      have hstep : (v + (M : Int) * 1) % M = v % M := Int.add_mul_emod_self_left _ _ _
      rw [mul_one] at hstep
      rw [← hstep]
      exact Int.emod_eq_of_lt (by omega) (by omega)
    rw [he]
    split <;> omega

theorem toUnsigned_toSigned (w : Nat) (hw : 1 ≤ w) (n : Nat)
    (h : n < 2 ^ (8 * w)) :
    toUnsigned w (toSigned w n) = n := by
  have hMA := pow_split w hw
  have hApos : 0 < (2 : Nat) ^ (8 * w - 1) := pow_pos (by norm_num) _
  unfold toSigned toUnsigned
  generalize hA : (2 : Nat) ^ (8 * w - 1) = A at *
  generalize hM : (2 : Nat) ^ (8 * w) = M at *
  split
  · rw [Int.emod_eq_of_lt (by omega) (by omega)]
    omega
  · have he : ((n : Int) - M) % M = (n : Int) := by
      have hstep : (((n : Int) - M) + (M : Int) * 1) % M = ((n : Int) - M) % M :=
        Int.add_mul_emod_self_left _ _ _
      rw [mul_one] at hstep
      have hsum : ((n : Int) - M) + (M : Int) = (n : Int) := by ring
      rw [hsum] at hstep
      rw [← hstep]
      exact Int.emod_eq_of_lt (by omega) (by omega)
    rw [he]
    omega

theorem saligned_roundtrip (e native : ByteOrder) (w : Nat) (hw : 1 ≤ w)
    (v : Int)
    (h1 : -((2 ^ (8 * w - 1) : Nat) : Int) ≤ v)
    (h2 : v < ((2 ^ (8 * w - 1) : Nat) : Int)) :
    saligned_read e native w (saligned_write e native w v) = v := by
  unfold saligned_read saligned_write
  rw [toUnsigned_toSigned w hw _
      (aligned_write_lt e native w _ (toUnsigned_lt w v)),
    aligned_roundtrip e native w _ (toUnsigned_lt w v),
    toSigned_toUnsigned w hw v h1 h2]

theorem sunaligned_roundtrip (e : ByteOrder) (w : Nat) (hw : 1 ≤ w)
    (v : Int)
    (h1 : -((2 ^ (8 * w - 1) : Nat) : Int) ≤ v)
    (h2 : v < ((2 ^ (8 * w - 1) : Nat) : Int)) :
    sunaligned_read e w (sunaligned_write e w v) = v := by
  unfold sunaligned_read sunaligned_write
  rw [unaligned_roundtrip e w _ (toUnsigned_lt w v),
    toSigned_toUnsigned w hw v h1 h2]

/-- C3: for every integer width (in bytes) and signedness, both byte
orders, and both calling conventions (aligned, on the native integer's bit
pattern, for any processor byte order; unaligned, on the integer's byte
array), decoding after encoding is the identity on every representable
value. -/
theorem C3_codec_roundtrip (e native : ByteOrder) (w : Nat) (hw : 1 ≤ w) :
    (∀ v : Nat, v < 2 ^ (8 * w) →
      aligned_read e native w (aligned_write e native w v) = v ∧
      unaligned_read e (unaligned_write e w v) = v) ∧
    (∀ i : Int, -((2 ^ (8 * w - 1) : Nat) : Int) ≤ i →
      i < ((2 ^ (8 * w - 1) : Nat) : Int) →
      saligned_read e native w (saligned_write e native w i) = i ∧
      sunaligned_read e w (sunaligned_write e w i) = i) := by
  refine ⟨fun v hv => ⟨aligned_roundtrip e native w v hv,
      unaligned_roundtrip e w v hv⟩,
    fun i hi1 hi2 => ⟨saligned_roundtrip e native w hw i hi1 hi2,
      sunaligned_roundtrip e w hw i hi1 hi2⟩⟩

/-- Witness for C3 at width 2 (the `u16`/`i16` boundary values `u16::MAX`
and `i16::MIN`), declared order big-endian on a little-endian processor. -/
theorem C3_codec_roundtrip_witness :
    (1 ≤ 2 ∧ (65535 : Nat) < 2 ^ (8 * 2) ∧
      aligned_read .big .little 2 (aligned_write .big .little 2 65535) = 65535 ∧
      unaligned_read .big (unaligned_write .big 2 65535) = 65535) ∧
    (-((2 ^ (8 * 2 - 1) : Nat) : Int) ≤ (-32768 : Int) ∧
      (-32768 : Int) < ((2 ^ (8 * 2 - 1) : Nat) : Int) ∧
      saligned_read .big .little 2 (saligned_write .big .little 2 (-32768)) = -32768 ∧
      sunaligned_read .big 2 (sunaligned_write .big 2 (-32768)) = -32768) := by
  refine ⟨⟨by norm_num, by norm_num, ?_, ?_⟩, by decide, by decide, ?_, ?_⟩
  · exact ((C3_codec_roundtrip .big .little 2 (by norm_num)).1 65535 (by norm_num)).1
  · exact ((C3_codec_roundtrip .big .little 2 (by norm_num)).1 65535 (by norm_num)).2
  · exact ((C3_codec_roundtrip .big .little 2 (by norm_num)).2 (-32768) (by decide) (by decide)).1
  · exact ((C3_codec_roundtrip .big .little 2 (by norm_num)).2 (-32768) (by decide) (by decide)).2

-- ELF layout lemmas

theorem fieldBytes_take (bs : List Nat) (n off w : Nat) (h : off + w ≤ n) :
    fieldBytes (bs.take n) off w = fieldBytes bs off w := by
  unfold fieldBytes
  rw [List.drop_take, List.take_take]
  congr 1
  omega

theorem fieldBytes_fieldBytes (bs : List Nat) (off w o2 w2 : Nat)
    (h : o2 + w2 ≤ w) :
    fieldBytes (fieldBytes bs off w) o2 w2 = fieldBytes bs (off + o2) w2 := by
  unfold fieldBytes
  rw [List.drop_take, List.take_take, List.drop_drop]
  have h1 : w2 ⊓ (w - o2) = w2 := by omega
  rw [h1]

theorem byteAt_take (bs : List Nat) (n j : Nat) (h : j < n) :
    byteAt (bs.take n) j = byteAt bs j := by
  unfold byteAt
  rw [List.getElem?_take, if_pos h]

theorem byteAt_fieldBytes (bs : List Nat) (off w j : Nat) (h : j < w) :
    byteAt (fieldBytes bs off w) j = byteAt bs (off + j) := by
  unfold byteAt fieldBytes
  rw [List.getElem?_take, if_pos h, List.getElem?_drop]

-- Parser lemmas

theorem magic_take_length (bs : List Nat) (hm : bs.take 4 = magicBytes) :
    4 ≤ bs.length := by
  have hlen := congrArg List.length hm
  rw [List.length_take] at hlen
  simp only [magicBytes, List.length_cons, List.length_nil] at hlen
  omega

theorem read_bytes_magic (bs : List Nat) (hm : bs.take 4 = magicBytes)
    (h4 : 4 ≤ bs.length) :
    read_bytes bs 4 0 = some magicBytes := by
  rw [read_bytes_of_le bs 4 0 (by decide) (by omega), List.drop_zero, hm]

theorem read_magic_ne (bs : List Nat) (h : bs.take 4 ≠ magicBytes) :
    read_bytes bs 4 0 ≠ some magicBytes := by
  rcases le_or_lt 4 bs.length with hle | hlt
  · rw [read_bytes_of_le bs 4 0 (by decide) (by omega), List.drop_zero]
    intro hc
    injection hc with hc
    exact h hc
  · rw [read_bytes_short bs 4 0 (by decide) (by omega)]
    exact fun hc => Option.noConfusion hc

theorem parse_elf_bad_magic (bs : List Nat) (h : bs.take 4 ≠ magicBytes) :
    parse_elf bs = .error .Empty := by
  unfold parse_elf
  rw [if_pos (read_magic_ne bs h)]

theorem parse_elf_no_format (bs : List Nat)
    (hm : read_bytes bs 4 0 = some magicBytes)
    (hf : read_bytes bs 2 4 = none) :
    parse_elf bs = .error .Empty := by
  unfold parse_elf
  rw [if_neg (by rw [hm]; simp), hf]

theorem parse_elf_dispatch (bs f : List Nat)
    (hm : read_bytes bs 4 0 = some magicBytes)
    (hf : read_bytes bs 2 4 = some f) :
    parse_elf bs =
      (if f = [1, 1] then
        match ElfFileParse (ElfType32 .little) bs with
        | .error e => .error e
        | .ok p => .ok (.Elf32Le p.1 p.2)
      else if f = [2, 1] then
        match ElfFileParse (ElfType64 .little) bs with
        | .error e => .error e
        | .ok p => .ok (.Elf64Le p.1 p.2)
      else if f = [1, 2] then
        match ElfFileParse (ElfType32 .big) bs with
        | .error e => .error e
        | .ok p => .ok (.Elf32Be p.1 p.2)
      else if f = [2, 2] then
        match ElfFileParse (ElfType64 .big) bs with
        | .error e => .error e
        | .ok p => .ok (.Elf64Be p.1 p.2)
      else .error .Empty) := by
  unfold parse_elf
  rw [if_neg (by rw [hm]; simp), hf]

theorem ElfHeader.from_bytes_ok (t : ElfTypeSpec) (bs : List Nat)
    (hlen : sizeOfElfHeader t ≤ bs.length) :
    ElfHeader.from_bytes t (bs.take (sizeOfElfHeader t)) =
      .ok (ElfHeader.ofBytes t (bs.take (sizeOfElfHeader t))) := by
  have hl : (bs.take (sizeOfElfHeader t)).length = sizeOfElfHeader t := by
    rw [List.length_take]
    omega
  unfold ElfHeader.from_bytes Pod.from_bytes
  rw [if_neg (by omega), if_neg (by simp)]

theorem ElfFileParse_ok (t : ElfTypeSpec) (bs : List Nat)
    (hsz : sizeOfElfHeader t < USIZE)
    (hlen : sizeOfElfHeader t ≤ bs.length) :
    ElfFileParse t bs =
      .ok (ElfHeader.ofBytes t (bs.take (sizeOfElfHeader t)), bs) := by
  have h1 : read_bytes bs (sizeOfElfHeader t) 0 =
      some (bs.take (sizeOfElfHeader t)) := by
    rw [read_bytes_of_le bs (sizeOfElfHeader t) 0 (by omega) (by omega),
      List.drop_zero]
  have h2 := ElfHeader.from_bytes_ok t bs hlen
  unfold ElfFileParse read_pod_header
  simp only [h1, h2]

theorem headerSpec32_ofBytes (e : ByteOrder) (bs : List Nat) :
    HeaderSpec32 e bs (ElfHeader.ofBytes (ElfType32 e) (bs.take 52)) := by
  have hf : ∀ off w, off + w ≤ 52 →
      unaligned_read e (fieldBytes (bs.take 52) off w) =
        unaligned_read e (fieldBytes bs off w) :=
    fun off w h => congrArg (unaligned_read e) (fieldBytes_take bs 52 off w h)
  have hb : ∀ j, j < 16 →
      byteAt (fieldBytes (bs.take 52) 0 16) j = byteAt bs j := by
    intro j hj
    rw [byteAt_fieldBytes (bs.take 52) 0 16 j hj, Nat.zero_add,
      byteAt_take bs 52 j (by omega)]
  have hpad : fieldBytes (fieldBytes (bs.take 52) 0 16) 9 7 =
      fieldBytes bs 9 7 := by
    rw [fieldBytes_fieldBytes (bs.take 52) 0 16 9 7 (by omega), Nat.zero_add,
      fieldBytes_take bs 52 9 7 (by omega)]
  exact ⟨hf 16 2 (by omega), hf 18 2 (by omega), hf 20 4 (by omega),
    hf 24 4 (by omega), hf 28 4 (by omega), hf 32 4 (by omega),
    hf 36 4 (by omega), hf 40 2 (by omega), hf 42 2 (by omega),
    hf 44 2 (by omega), hf 46 2 (by omega), hf 48 2 (by omega),
    hf 50 2 (by omega),
    hb 0 (by omega), hb 1 (by omega), hb 2 (by omega), hb 3 (by omega),
    hb 4 (by omega), hb 5 (by omega), hb 6 (by omega), hb 7 (by omega),
    hb 8 (by omega), hpad⟩

theorem headerSpec64_ofBytes (e : ByteOrder) (bs : List Nat) :
    HeaderSpec64 e bs (ElfHeader.ofBytes (ElfType64 e) (bs.take 64)) := by
  have hf : ∀ off w, off + w ≤ 64 →
      unaligned_read e (fieldBytes (bs.take 64) off w) =
        unaligned_read e (fieldBytes bs off w) :=
    fun off w h => congrArg (unaligned_read e) (fieldBytes_take bs 64 off w h)
  have hb : ∀ j, j < 16 →
      byteAt (fieldBytes (bs.take 64) 0 16) j = byteAt bs j := by
    intro j hj
    rw [byteAt_fieldBytes (bs.take 64) 0 16 j hj, Nat.zero_add,
      byteAt_take bs 64 j (by omega)]
  have hpad : fieldBytes (fieldBytes (bs.take 64) 0 16) 9 7 =
      fieldBytes bs 9 7 := by
    rw [fieldBytes_fieldBytes (bs.take 64) 0 16 9 7 (by omega), Nat.zero_add,
      fieldBytes_take bs 64 9 7 (by omega)]
  exact ⟨hf 16 2 (by omega), hf 18 2 (by omega), hf 20 4 (by omega),
    hf 24 8 (by omega), hf 32 8 (by omega), hf 40 8 (by omega),
    hf 48 4 (by omega), hf 52 2 (by omega), hf 54 2 (by omega),
    hf 56 2 (by omega), hf 58 2 (by omega), hf 60 2 (by omega),
    hf 62 2 (by omega),
    hb 0 (by omega), hb 1 (by omega), hb 2 (by omega), hb 3 (by omega),
    hb 4 (by omega), hb 5 (by omega), hb 6 (by omega), hb 7 (by omega),
    hb 8 (by omega), hpad⟩

theorem parse_elf_success (c : Combo) (bs : List Nat)
    (hm : bs.take 4 = magicBytes)
    (hcd : (bs.drop 4).take 2 = [c.classByte, c.dataByte])
    (hlen : sizeOfElfHeader c.typeSpec ≤ bs.length) :
    parse_elf bs =
      .ok (c.make (ElfHeader.ofBytes c.typeSpec
        (bs.take (sizeOfElfHeader c.typeSpec))) bs) := by
  have h4 : 4 ≤ bs.length := magic_take_length bs hm
  have hsz : sizeOfElfHeader c.typeSpec < USIZE := by cases c <;> decide
  have h6 : 6 ≤ bs.length := by
    have : 6 ≤ sizeOfElfHeader c.typeSpec := by cases c <;> decide
    omega
  have hmagic : read_bytes bs 4 0 = some magicBytes := read_bytes_magic bs hm h4
  have hp := ElfFileParse_ok c.typeSpec bs hsz hlen
  have hf : read_bytes bs 2 4 = some [c.classByte, c.dataByte] := by
    rw [read_bytes_of_le bs 2 4 (by decide) (by omega), hcd]
  cases c
  case c32le =>
    have hf' : read_bytes bs 2 4 = some [1, 1] := hf
    simp only [Combo.typeSpec] at hp
    rw [parse_elf_dispatch bs [1, 1] hmagic hf', if_pos rfl]
    simp only [hp]
    rfl
  case c64le =>
    have hf' : read_bytes bs 2 4 = some [2, 1] := hf
    simp only [Combo.typeSpec] at hp
    rw [parse_elf_dispatch bs [2, 1] hmagic hf', if_neg (by decide),
      if_pos rfl]
    simp only [hp]
    rfl
  case c32be =>
    have hf' : read_bytes bs 2 4 = some [1, 2] := hf
    simp only [Combo.typeSpec] at hp
    rw [parse_elf_dispatch bs [1, 2] hmagic hf', if_neg (by decide),
      if_neg (by decide), if_pos rfl]
    simp only [hp]
    rfl
  case c64be =>
    have hf' : read_bytes bs 2 4 = some [2, 2] := hf
    simp only [Combo.typeSpec] at hp
    rw [parse_elf_dispatch bs [2, 2] hmagic hf', if_neg (by decide),
      if_neg (by decide), if_neg (by decide), if_pos rfl]
    simp only [hp]
    rfl

/-- C1: for each of the four class/data byte pairs, every buffer starting
with the ELF magic, carrying that pair at offsets 4 and 5, and at least as
long as the corresponding header structure parses to `Ok` of exactly the
corresponding tagged variant (32-bit LE, 64-bit LE, 32-bit BE, 64-bit BE),
and every field of the returned header, decoded via `get`, equals the
integer encoded at that field's offset in the input bytes in the declared
byte order. -/
theorem C1_dispatch_and_fields (c : Combo) (bs : List Nat)
    (hm : bs.take 4 = magicBytes)
    (hcd : (bs.drop 4).take 2 = [c.classByte, c.dataByte])
    (hlen : sizeOfElfHeader c.typeSpec ≤ bs.length) :
    ∃ h : ElfHeader,
      parse_elf bs = .ok (c.make h bs) ∧ HeaderSpec c bs h := by
  refine ⟨ElfHeader.ofBytes c.typeSpec (bs.take (sizeOfElfHeader c.typeSpec)),
    parse_elf_success c bs hm hcd hlen, ?_⟩
  cases c
  case c32le => exact headerSpec32_ofBytes .little bs
  case c64le => exact headerSpec64_ofBytes .little bs
  case c32be => exact headerSpec32_ofBytes .big bs
  case c64be => exact headerSpec64_ofBytes .big bs

/-- Witness for C1: the 52-byte sample buffer with class/data `(1,1)`
parses as the 32-bit little-endian variant. -/
theorem C1_dispatch_and_fields_witness :
    (sampleBuf.take 4 = magicBytes ∧
      (sampleBuf.drop 4).take 2 = [Combo.c32le.classByte, Combo.c32le.dataByte] ∧
      sizeOfElfHeader Combo.c32le.typeSpec ≤ sampleBuf.length) ∧
    ∃ h : ElfHeader,
      parse_elf sampleBuf = .ok (Combo.c32le.make h sampleBuf) ∧
        HeaderSpec Combo.c32le sampleBuf h := by
  refine ⟨⟨by decide, by decide, by decide⟩, ?_⟩
  exact C1_dispatch_and_fields Combo.c32le sampleBuf (by decide) (by decide)
    (by decide)

/-- C5: any buffer whose first four bytes are not `7F 45 4C 46` (including
any buffer shorter than four bytes) is rejected with an error, and the
rejection depends only on bytes 0–3: every buffer with the same 4-byte
prefix is rejected identically, so no byte beyond offset 3 is
inspected. -/
theorem C5_magic_gate (bs : List Nat) (h : bs.take 4 ≠ magicBytes) :
    parse_elf bs = .error .Empty ∧
    ∀ bs' : List Nat, bs'.take 4 = bs.take 4 → parse_elf bs' = .error .Empty := by
  refine ⟨parse_elf_bad_magic bs h, fun bs' hpre => parse_elf_bad_magic bs' ?_⟩
  rw [hpre]
  exact h

/-- Witness for C5: a 5-byte buffer with wrong magic and a second buffer
sharing its 4-byte prefix. -/
theorem C5_magic_gate_witness :
    ([9, 9, 9, 9, 5] : List Nat).take 4 ≠ magicBytes ∧
    parse_elf [9, 9, 9, 9, 5] = .error .Empty ∧
    parse_elf [9, 9, 9, 9] = .error .Empty := by
  refine ⟨by decide, (C5_magic_gate [9, 9, 9, 9, 5] (by decide)).1, ?_⟩
  exact (C5_magic_gate [9, 9, 9, 9, 5] (by decide)).2 [9, 9, 9, 9] (by decide)

/-- C6: the identification block occupies exactly 16 bytes for every one
of the four word-width/byte-order combinations; in particular the 32-bit
layout does not diverge from the 64-bit layout. -/
theorem C6_identification_size :
    sizeOfElfIdentification (ElfType32 .little) = 16 ∧
    sizeOfElfIdentification (ElfType32 .big) = 16 ∧
    sizeOfElfIdentification (ElfType64 .little) = 16 ∧
    sizeOfElfIdentification (ElfType64 .big) = 16 :=
  ⟨rfl, rfl, rfl, rfl⟩

/-- Counterexample for C7: a structural rejection (bad magic, first
conjunct) surfaces `BytesError.Empty`, the very same variant returned for
an out-of-range header read (second conjunct: valid magic and class/data
pair but a buffer shorter than the header, failing inside `read_pod`) —
the two failure classes are not distinct error variants. -/
theorem C7_counterexample :
    parse_elf [0, 0, 0, 0] = .error .Empty ∧
    parse_elf [0x7f, 0x45, 0x4c, 0x46, 1, 1] = .error .Empty :=
  ⟨rfl, rfl⟩

/-- C7 (amended): when parsing fails on a structural rejection (magic
bytes absent, class/data bytes missing, or a class/data pair outside the
four supported combinations) `parse_elf` returns an error and no partial
object — but the error is the one generic `BytesError.Empty` value, the
same variant used for out-of-range reads, not a distinct variant. -/
theorem C7_structural_errors (bs : List Nat)
    (h : bs.take 4 ≠ magicBytes ∨ bs.length < 6 ∨
      ¬ ValidPair ((bs.drop 4).take 2)) :
    parse_elf bs = .error .Empty := by
  by_cases hm : bs.take 4 = magicBytes
  · have h4 : 4 ≤ bs.length := magic_take_length bs hm
    have hmagic : read_bytes bs 4 0 = some magicBytes := read_bytes_magic bs hm h4
    rcases h with h | h | h
    · exact absurd hm h
    · exact parse_elf_no_format bs hmagic
        (read_bytes_short bs 2 4 (by decide) (by omega))
    · rcases lt_or_ge bs.length 6 with h6 | h6
      · exact parse_elf_no_format bs hmagic
          (read_bytes_short bs 2 4 (by decide) (by omega))
      · have hf : read_bytes bs 2 4 = some ((bs.drop 4).take 2) :=
          read_bytes_of_le bs 2 4 (by decide) (by omega)
        rw [parse_elf_dispatch bs ((bs.drop 4).take 2) hmagic hf]
        unfold ValidPair at h
        push_neg at h
        obtain ⟨h1, h2, h3, h4'⟩ := h
        rw [if_neg h1, if_neg h2, if_neg h3, if_neg h4']
  · exact parse_elf_bad_magic bs hm

/-- Witness for C7 (amended): valid magic but the unsupported class/data
pair `(3,3)`. -/
theorem C7_structural_errors_witness :
    (([0x7f, 0x45, 0x4c, 0x46, 3, 3] : List Nat).take 4 ≠ magicBytes ∨
      ([0x7f, 0x45, 0x4c, 0x46, 3, 3] : List Nat).length < 6 ∨
      ¬ ValidPair ((([0x7f, 0x45, 0x4c, 0x46, 3, 3] : List Nat).drop 4).take 2)) ∧
    parse_elf [0x7f, 0x45, 0x4c, 0x46, 3, 3] = .error .Empty := by
  refine ⟨Or.inr (Or.inr (by decide)), ?_⟩
  exact C7_structural_errors [0x7f, 0x45, 0x4c, 0x46, 3, 3]
    (Or.inr (Or.inr (by decide)))

/-- C9: the magic rendering groups runs of printable bytes, renders each
non-printable byte as `\xHH`, separates groups with single spaces and
trims leading separators: `7F 45 4C 46` renders as `\x7f ELF`,
`01 41 02 62` as `\x01 A \x02 b`, and `01 02 03 41` as
`\x01 \x02 \x03 A`. -/
theorem C9_magic_rendering :
    magicDisplay [0x7f, 0x45, 0x4c, 0x46] = "\\x7f ELF".toList ∧
    magicDisplay [0x01, 0x41, 0x02, 0x62] = "\\x01 A \\x02 b".toList ∧
    magicDisplay [0x01, 0x02, 0x03, 0x41] = "\\x01 \\x02 \\x03 A".toList := by
  refine ⟨by decide, by decide, by decide⟩

end Elfprobe
